import Mathlib

/-!
Shallow embedding of `queue.c` from lab0-c: a singly-linked queue of C strings
with head/tail insertion, head removal, in-place reversal and an in-place
linked-list merge sort (`split` / `merge` / `merge_sort` over closed ranges).

Modelling conventions:
* A C string is a `List Nat` of its bytes (the bytes before the terminating
  NUL); `strcmp` is modelled sign-faithfully (the C standard only specifies
  the sign of its result, and `queue.c` only ever tests the sign).
* A list node (`list_ele_t`) is an `Ele`: an allocation identity `id`
  (modelling the node's address) plus its `value` string.  `next` pointers
  and the heap are modelled by representing the chain reachable from
  `q->head` as a Lean list `nodes : List Ele`; relinking nodes is
  rearranging that list, and "no node allocated or destroyed" is the
  resulting list being a permutation of the old one.
* The stored `q->tail` pointer is `tailRef : Option Nat`, the `id` of the
  node it points at (`none` for `NULL`); the stored `q->size` counter is
  `size : Nat`.  Both can in principle go out of sync with `nodes`; the
  structural invariant `Wf` says they do not.
* `malloc` / `strdup` are capabilities that can fail: each call that
  allocates takes two oracle booleans (`m` for the node `malloc`, `d` for
  the `strdup`) and a fresh id for the new node.
* `q_insert_tail` links the new node through the stored tail pointer; it is
  modelled as appending at the end of the chain, which is its behaviour
  whenever the stored tail is the last node of the chain (the invariant
  `Wf`, shown to be maintained by every operation).  Likewise `q_sort`
  wraps the full chain `head..tail` into the initial range.
-/

namespace Lab0

/-- C `strcmp`, byte-wise on unsigned chars, sign-faithful: the terminator of
a proper prefix compares below any byte, a larger first differing byte wins. -/
def strcmp : List Nat → List Nat → Int
  | [], [] => 0
  | [], _ :: _ => -1
  | _ :: _, [] => 1
  | a :: as, b :: bs =>
      if a < b then -1 else if b < a then 1 else strcmp as bs

/-- Node type `list_ele_t`: allocation identity (address) plus owned string value.
The `next` field is represented by position in the chain list. -/
structure Ele where
  id : Nat
  value : List Nat
deriving DecidableEq, Repr

/-- Comparator `cmp_elem` from queue.c line 166: `strcmp(a->value, b->value)`. -/
def cmp_elem (a b : Ele) : Int := strcmp a.value b.value

/-- Allocator `new_element` (queue.c line 14): `NULL` when `s` is `NULL`, the node
`malloc` fails, or the `strdup` fails (in which case the node is freed
again); otherwise a fresh node holding a copy of `s`. -/
def new_element (s : Option (List Nat)) (m d : Bool) (i : Nat) : Option Ele :=
  if s.isNone ∨ m = false then none
  else if d = false then none
  else s.map fun v => ⟨i, v⟩

/-- Queue type `queue_t`: the chain reachable from `head`, the stored tail pointer
(as the id of the node it points at), and the stored size counter. -/
structure Queue where
  nodes : List Ele
  tailRef : Option Nat
  size : Nat
deriving DecidableEq, Repr

/-- Constructor `q_new` (queue.c line 46), the successfully allocated case:
head = tail = NULL, size = 0. -/
def q_new : Queue := ⟨[], none, 0⟩

/-- Accessor `q_size` (queue.c line 133): 0 for NULL, else the stored counter. -/
def q_size : Option Queue → Nat
  | none => 0
  | some q => q.size

/-- Operation `q_insert_head` (queue.c line 74).  Returns the C `bool` result and the
queue state afterwards; on failure the state is the unchanged input. -/
def q_insert_head (q : Option Queue) (s : Option (List Nat)) (m d : Bool)
    (i : Nat) : Bool × Option Queue :=
  match q with
  | none => (false, none)
  | some q =>
    match new_element s m d i with
    | none => (false, some q)
    | some e =>
      (true, some { nodes := e :: q.nodes,
                    tailRef := if q.size = 0 then some e.id else q.tailRef,
                    size := q.size + 1 })

/-- Operation `q_insert_tail` (queue.c line 93): empty queues delegate to
`q_insert_head`; otherwise the new node is linked after the stored tail
(the end of the chain under `Wf`; on allocation failure the only write is
`tail->next = NULL`, which leaves the already NULL-terminated chain
unchanged). -/
def q_insert_tail (q : Option Queue) (s : Option (List Nat)) (m d : Bool)
    (i : Nat) : Bool × Option Queue :=
  match q with
  | none => (false, none)
  | some q =>
    if q.size = 0 then q_insert_head (some q) s m d i
    else
      match new_element s m d i with
      | none => (false, some q)
      | some e =>
        (true, some { nodes := q.nodes ++ [e],
                      tailRef := some e.id,
                      size := q.size + 1 })

/-- The first `n` bytes `strncpy(sp, v, n)` stores: the copied prefix of `v`
padded with NUL bytes up to `n`. -/
def strncpy_buf (v : List Nat) (n : Nat) : List Nat :=
  v.take n ++ List.replicate (n - v.length) 0

/-- Operation `q_remove_head` (queue.c line 114).  Returns the C `bool`, the bytes
occupying the caller's buffer (`strncpy` into `bufsize - 1` bytes plus the
explicit terminator at `sp[bufsize - 1]`) when `sp` was non-NULL, and the
queue afterwards.  After the decrement, `if (1 >= q->size) q->tail = q->head`. -/
def q_remove_head (q : Option Queue) (hasBuf : Bool) (bufsize : Nat) :
    Bool × Option (List Nat) × Option Queue :=
  match q with
  | none => (false, none, none)
  | some q =>
    if q.size = 0 then (false, none, some q)
    else
      (true,
       if hasBuf then
         q.nodes.head?.map fun e => strncpy_buf e.value (bufsize - 1) ++ [0]
       else none,
       some { nodes := q.nodes.tail,
              tailRef := if q.size - 1 ≤ 1 then q.nodes.tail.head?.map Ele.id
                         else q.tailRef,
              size := q.size - 1 })

/-- Operation `q_reverse` (queue.c line 145): no-op when `q_size(q) <= 1`; otherwise
the three-pointer pass reverses the chain, then `tail = old head`,
`head = last visited node`. -/
def q_reverse (q : Option Queue) : Option Queue :=
  if q_size q ≤ 1 then q
  else q.map fun q =>
    { nodes := q.nodes.reverse,
      tailRef := q.nodes.head?.map Ele.id,
      size := q.size }

/-- Number of iterations of the fast-`probe` loop in `split`
(queue.c line 195): `probe` starts at `head->next` and jumps two nodes per
iteration while it and its successor exist. -/
def probeSteps : List Ele → Nat
  | [] => 0
  | [_] => 0
  | _ :: _ :: rest => probeSteps rest + 1

/-- The fast pointer covers two nodes per step. -/
theorem probeSteps_eq : (l : List Ele) → probeSteps l = l.length / 2
  | [] => rfl
  | [_] => by simp [probeSteps]
  | _ :: _ :: rest => by
      have ih := probeSteps_eq rest
      simp [probeSteps, ih]
      omega

/-- Function `split` (queue.c line 184): ranges of one node return themselves as `r1`
with empty `r2`; otherwise the cut pointer (starting at `head`, advancing
once per probe iteration) ends `probeSteps` nodes in, `r1 = head..cut`,
`r2 = cut->next..tail`, and both sub-ranges are NUL-terminated (each is its
own closed chain).  `split` is only ever called on non-empty ranges. -/
def split (l : List Ele) : List Ele × List Ele :=
  match l with
  | [] => ([], [])
  | [a] => ([a], [])
  | a :: b :: rest =>
      let k := probeSteps (b :: rest) + 1
      ((a :: b :: rest).take k, (a :: b :: rest).drop k)

/-- Function `merge` (queue.c line 213): two-pointer merge taking from `r1` exactly
when `cmp_elem(h1, h2) < 0`, splicing the unexhausted remainder at the end. -/
def merge : List Ele → List Ele → List Ele
  | [], l2 => l2
  | l1, [] => l1
  | a :: as, b :: bs =>
      if cmp_elem a b < 0 then a :: merge as (b :: bs)
      else b :: merge (a :: as) bs
termination_by l1 l2 => l1.length + l2.length

/-- Function `merge_sort` (queue.c line 242): length-1 and length-2 ranges are handled
directly (two nodes are swapped iff the second compares strictly below the
first); longer ranges are split, sorted recursively and merged. -/
def merge_sort (l : List Ele) : List Ele :=
  match l with
  | [] => []
  | [a] => [a]
  | [a, b] => if cmp_elem b a < 0 then [b, a] else [a, b]
  | a :: b :: c :: rest =>
      merge (merge_sort (split (a :: b :: c :: rest)).1)
            (merge_sort (split (a :: b :: c :: rest)).2)
termination_by l.length
decreasing_by
  all_goals
    simp [split, probeSteps_eq, probeSteps]
    omega

/-- Operation `q_sort` (queue.c line 273): no-op when `q_size(q) <= 1`; otherwise the
full chain `head..tail` is wrapped into one range, `merge_sort` runs, and the
resulting range's head and tail are written back (`size` untouched; the
range's tail is the last node of the merged chain). -/
def q_sort (q : Option Queue) : Option Queue :=
  if q_size q ≤ 1 then q
  else q.map fun q =>
    { nodes := merge_sort q.nodes,
      tailRef := (merge_sort q.nodes).getLast?.map Ele.id,
      size := q.size }

/-- One external mutating operation, with its allocation oracle and fresh id
where relevant. -/
inductive Op where
  | insertHead (s : Option (List Nat)) (m d : Bool) (i : Nat)
  | insertTail (s : Option (List Nat)) (m d : Bool) (i : Nat)
  | removeHead (hasBuf : Bool) (bufsize : Nat)
  | reverse
  | sort
deriving DecidableEq, Repr

/-- Apply one operation to a (non-NULL) queue. -/
def applyOp (q : Queue) (op : Op) : Queue :=
  match op with
  | .insertHead s m d i => ((q_insert_head (some q) s m d i).2).getD q
  | .insertTail s m d i => ((q_insert_tail (some q) s m d i).2).getD q
  | .removeHead b n => ((q_remove_head (some q) b n).2.2).getD q
  | .reverse => (q_reverse (some q)).getD q
  | .sort => (q_sort (some q)).getD q

/-- Run a sequence of operations from a fresh empty queue. -/
def runOps (ops : List Op) : Queue := ops.foldl applyOp q_new

/-- The queue's structural invariant: the stored size counter equals the
number of nodes reachable from `head`, and the stored tail pointer is the
last node of that chain (so `tail` is reached from `head` in `size - 1`
steps and `tail->next` is NULL, and an empty queue has `head = tail = NULL`). -/
def Wf (q : Queue) : Prop :=
  q.size = q.nodes.length ∧ q.tailRef = q.nodes.getLast?.map Ele.id

instance (q : Queue) : Decidable (Wf q) := by unfold Wf; infer_instance

/-- The relation `merge_sort` sorts by: `cmp_elem a b ≤ 0`. -/
def eleLe (a b : Ele) : Prop := cmp_elem a b ≤ 0

instance (a b : Ele) : Decidable (eleLe a b) := by unfold eleLe; infer_instance

/-! ### Order facts about `strcmp` -/

/-- Swapping the arguments of `strcmp` flips the sign of the result. -/
theorem strcmp_swap : ∀ a b, strcmp a b = -strcmp b a
  | [], [] => by simp [strcmp]
  | [], _ :: _ => by simp [strcmp]
  | _ :: _, [] => by simp [strcmp]
  | x :: xs, y :: ys => by
      have ih := strcmp_swap xs ys
      simp only [strcmp]
      split_ifs <;> omega

/-- Being `strcmp`-below-or-equal is transitive. -/
theorem strcmp_le_trans : ∀ a b c, strcmp a b ≤ 0 → strcmp b c ≤ 0 → strcmp a c ≤ 0
  | [], _, c, _, _ => by cases c <;> simp [strcmp]
  | _ :: _, [], _, h1, _ => by simp [strcmp] at h1
  | _ :: _, _ :: _, [], _, h2 => by simp [strcmp] at h2
  | x :: xs, y :: ys, z :: zs, h1, h2 => by
      have ih := strcmp_le_trans xs ys zs
      simp only [strcmp] at h1 h2 ⊢
      split_ifs at h1 h2 ⊢ <;> first | omega | exact ih h1 h2

/-- Failing the strict test `cmp_elem h1 h2 < 0` in `merge` means the element
taken from `r2` compares below-or-equal the one left in `r1`. -/
theorem cmp_elem_not_lt {a b : Ele} (h : ¬ cmp_elem a b < 0) : cmp_elem b a ≤ 0 := by
  have := strcmp_swap a.value b.value
  unfold cmp_elem at *
  omega

/-- Taking from `r1` in `merge` keeps the output ascending. -/
theorem cmp_elem_le_of_lt {a b : Ele} (h : cmp_elem a b < 0) : cmp_elem a b ≤ 0 :=
  le_of_lt h

/-! ### `merge` lemmas -/

/-- Function `merge` only relinks: its output is a permutation of its two inputs. -/
theorem merge_perm : ∀ l1 l2, (merge l1 l2).Perm (l1 ++ l2)
  | [], l2 => by simp [merge]
  | a :: as, [] => by simp [merge]
  | a :: as, b :: bs => by
      by_cases h : cmp_elem a b < 0
      · have ih := merge_perm as (b :: bs)
        simpa [merge, h] using ih
      · have ih := merge_perm (a :: as) bs
        rw [show merge (a :: as) (b :: bs) = b :: merge (a :: as) bs by
          simp [merge, h]]
        exact (ih.cons b).trans List.perm_middle.symm
termination_by l1 l2 => l1.length + l2.length

/-- The head of a merge is the head of one of the inputs. -/
theorem merge_head? (l1 l2 : List Ele) :
    (merge l1 l2).head? = l1.head? ∨ (merge l1 l2).head? = l2.head? := by
  match l1, l2 with
  | [], l2 => right; simp [merge]
  | a :: as, [] => left; simp [merge]
  | a :: as, b :: bs =>
      by_cases h : cmp_elem a b < 0
      · left; simp [merge, h]
      · right; simp [merge, h]

/-- Merging two ascending ranges is ascending. -/
theorem merge_chain' : ∀ l1 l2, l1.Chain' eleLe → l2.Chain' eleLe →
    (merge l1 l2).Chain' eleLe
  | [], l2, _, h2 => by simpa [merge] using h2
  | a :: as, [], h1, _ => by simpa [merge] using h1
  | a :: as, b :: bs, h1, h2 => by
      by_cases h : cmp_elem a b < 0
      · rw [show merge (a :: as) (b :: bs) = a :: merge as (b :: bs) by
          simp [merge, h]]
        rw [List.chain'_cons']
        refine ⟨?_, merge_chain' as (b :: bs) h1.tail h2⟩
        intro y hy
        rcases merge_head? as (b :: bs) with hh | hh
        · rw [hh] at hy
          exact (List.chain'_cons'.mp h1).1 y hy
        · rw [hh] at hy
          simp only [List.head?_cons, Option.mem_def, Option.some.injEq] at hy
          subst hy
          exact cmp_elem_le_of_lt h
      · rw [show merge (a :: as) (b :: bs) = b :: merge (a :: as) bs by
          simp [merge, h]]
        rw [List.chain'_cons']
        refine ⟨?_, merge_chain' (a :: as) bs h1 h2.tail⟩
        intro y hy
        rcases merge_head? (a :: as) bs with hh | hh
        · rw [hh] at hy
          simp only [List.head?_cons, Option.mem_def, Option.some.injEq] at hy
          subst hy
          exact cmp_elem_not_lt h
        · rw [hh] at hy
          exact (List.chain'_cons'.mp h2).1 y hy
termination_by l1 l2 => l1.length + l2.length

/-! ### `split` lemmas -/

/-- Sizes and concatenation of the two halves produced by `split` on a range
of at least two nodes. -/
theorem split_spec (a b : Ele) (rest : List Ele) :
    (split (a :: b :: rest)).1.length = (rest.length + 3) / 2 ∧
    (split (a :: b :: rest)).2.length = (rest.length + 2) / 2 ∧
    (split (a :: b :: rest)).1 ++ (split (a :: b :: rest)).2 = a :: b :: rest := by
  refine ⟨?_, ?_, List.take_append_drop _ _⟩ <;>
    simp [split, probeSteps_eq, probeSteps] <;> omega

/-! ### `merge_sort` lemmas -/

/-- Function `merge_sort` only relinks: its output is a permutation of its input. -/
theorem merge_sort_perm : ∀ l, (merge_sort l).Perm l
  | [] => by simp [merge_sort]
  | [a] => by simp [merge_sort]
  | [a, b] => by
      by_cases h : cmp_elem b a < 0
      · simp only [merge_sort, h, if_true]
        exact List.Perm.swap a b []
      · simp [merge_sort, h]
  | a :: b :: c :: rest => by
      have hs := split_spec a b (c :: rest)
      simp only [List.length_cons] at hs
      have hlen1 : (split (a :: b :: c :: rest)).1.length < rest.length + 3 := by
        omega
      have hlen2 : (split (a :: b :: c :: rest)).2.length < rest.length + 3 := by
        omega
      have ih1 := merge_sort_perm (split (a :: b :: c :: rest)).1
      have ih2 := merge_sort_perm (split (a :: b :: c :: rest)).2
      rw [show merge_sort (a :: b :: c :: rest)
            = merge (merge_sort (split (a :: b :: c :: rest)).1)
                    (merge_sort (split (a :: b :: c :: rest)).2) by
        simp [merge_sort]]
      refine (merge_perm _ _).trans ?_
      refine ((ih1.append ih2).trans ?_)
      rw [hs.2.2]
termination_by l => l.length
decreasing_by
  all_goals
    simp only [List.length_cons]
    omega

/-- Function `merge_sort` produces an ascending chain. -/
theorem merge_sort_chain' : ∀ l, (merge_sort l).Chain' eleLe
  | [] => by simp [merge_sort]
  | [a] => by simp [merge_sort]
  | [a, b] => by
      by_cases h : cmp_elem b a < 0
      · simp only [merge_sort, h, if_true]
        exact List.chain'_pair.mpr (cmp_elem_le_of_lt h)
      · simp only [merge_sort, h, if_false]
        exact List.chain'_pair.mpr (cmp_elem_not_lt h)
  | a :: b :: c :: rest => by
      have hs := split_spec a b (c :: rest)
      simp only [List.length_cons] at hs
      have hlen1 : (split (a :: b :: c :: rest)).1.length < rest.length + 3 := by
        omega
      have hlen2 : (split (a :: b :: c :: rest)).2.length < rest.length + 3 := by
        omega
      have ih1 := merge_sort_chain' (split (a :: b :: c :: rest)).1
      have ih2 := merge_sort_chain' (split (a :: b :: c :: rest)).2
      rw [show merge_sort (a :: b :: c :: rest)
            = merge (merge_sort (split (a :: b :: c :: rest)).1)
                    (merge_sort (split (a :: b :: c :: rest)).2) by
        simp [merge_sort]]
      exact merge_chain' _ _ ih1 ih2
termination_by l => l.length
decreasing_by
  all_goals
    simp only [List.length_cons]
    omega

/-- Function `merge_sort` preserves the chain length. -/
theorem merge_sort_length (l : List Ele) : (merge_sort l).length = l.length :=
  (merge_sort_perm l).length_eq

/-! ### Structural invariant machinery -/

/-- On lists of at most one node, the first and the last node coincide. -/
theorem getLast?_eq_head?_of_len_le_one {l : List Ele} (h : l.length ≤ 1) :
    l.getLast? = l.head? := by
  match l with
  | [] => rfl
  | [a] => rfl
  | a :: b :: rest => simp at h

/-- The empty queue satisfies the structural invariant. -/
theorem wf_q_new : Wf q_new := by constructor <;> rfl

/-- Operation `q_insert_head` preserves the structural invariant. -/
theorem wf_insert_head {q : Queue} (hq : Wf q) (s : Option (List Nat))
    (m d : Bool) (i : Nat) :
    Wf (((q_insert_head (some q) s m d i).2).getD q) := by
  obtain ⟨hsz, htl⟩ := hq
  unfold q_insert_head
  match he : new_element s m d i with
  | none => simpa [Wf] using ⟨hsz, htl⟩
  | some e =>
    by_cases h0 : q.size = 0
    · have hnil : q.nodes = [] := by
        cases hn : q.nodes <;> simp_all
      refine ⟨by simp [hsz], ?_⟩
      simp [h0, hnil]
    · have hne : q.nodes ≠ [] := by
        cases hn : q.nodes <;> simp_all
      obtain ⟨n0, rest, hn⟩ := List.exists_cons_of_ne_nil hne
      refine ⟨by simp [hsz], ?_⟩
      simp only [h0, if_false, htl, hn, Option.getD_some]
      rw [List.getLast?_cons_cons]

/-- Operation `q_insert_tail` preserves the structural invariant. -/
theorem wf_insert_tail {q : Queue} (hq : Wf q) (s : Option (List Nat))
    (m d : Bool) (i : Nat) :
    Wf (((q_insert_tail (some q) s m d i).2).getD q) := by
  obtain ⟨hsz, htl⟩ := hq
  unfold q_insert_tail
  by_cases h0 : q.size = 0
  · simpa [h0] using wf_insert_head ⟨hsz, htl⟩ s m d i
  · simp only [h0, if_false]
    match he : new_element s m d i with
    | none => exact ⟨hsz, htl⟩
    | some e =>
      refine ⟨by simp [hsz], ?_⟩
      simp [List.getLast?_concat]

/-- Operation `q_remove_head` preserves the structural invariant. -/
theorem wf_remove_head {q : Queue} (hq : Wf q) (hasBuf : Bool) (bufsize : Nat) :
    Wf (((q_remove_head (some q) hasBuf bufsize).2.2).getD q) := by
  obtain ⟨hsz, htl⟩ := hq
  unfold q_remove_head
  by_cases h0 : q.size = 0
  · simpa [h0] using ⟨hsz, htl⟩
  · simp only [h0, if_false, Option.getD_some]
    refine ⟨by simp [hsz], ?_⟩
    by_cases h1 : q.size - 1 ≤ 1
    · simp only [h1, if_true]
      rw [getLast?_eq_head?_of_len_le_one]
      simp [hsz] at h1 ⊢
      omega
    · simp only [h1, if_false, htl]
      have hlen : 2 ≤ q.nodes.tail.length := by
        simp [hsz] at h1 ⊢
        omega
      match hn : q.nodes with
      | [] => simp [hn] at hlen
      | [a] => simp [hn] at hlen
      | a :: b :: rest => simp [List.getLast?_cons_cons]

/-- Operation `q_reverse` preserves the structural invariant. -/
theorem wf_reverse {q : Queue} (hq : Wf q) :
    Wf ((q_reverse (some q)).getD q) := by
  obtain ⟨hsz, htl⟩ := hq
  unfold q_reverse
  by_cases h1 : q_size (some q) ≤ 1
  · simpa [h1] using ⟨hsz, htl⟩
  · simp only [h1, if_false, Option.map_some', Option.getD_some]
    exact ⟨by simp [hsz], by rw [List.getLast?_reverse]⟩

/-- Operation `q_sort` preserves the structural invariant. -/
theorem wf_sort {q : Queue} (hq : Wf q) :
    Wf ((q_sort (some q)).getD q) := by
  obtain ⟨hsz, htl⟩ := hq
  unfold q_sort
  by_cases h1 : q_size (some q) ≤ 1
  · simpa [h1] using ⟨hsz, htl⟩
  · simp only [h1, if_false, Option.map_some', Option.getD_some]
    exact ⟨by rw [merge_sort_length, hsz], rfl⟩

/-- Every operation preserves the structural invariant. -/
theorem wf_applyOp {q : Queue} (hq : Wf q) (op : Op) : Wf (applyOp q op) := by
  cases op with
  | insertHead s m d i => exact wf_insert_head hq s m d i
  | insertTail s m d i => exact wf_insert_tail hq s m d i
  | removeHead b n => exact wf_remove_head hq b n
  | reverse => exact wf_reverse hq
  | sort => exact wf_sort hq

/-- The invariant holds along any whole run. -/
theorem wf_foldl : ∀ (ops : List Op) (q : Queue), Wf q → Wf (ops.foldl applyOp q)
  | [], q, hq => hq
  | op :: ops, q, hq => wf_foldl ops (applyOp q op) (wf_applyOp hq op)

/-! ### Claims -/

/-- C1: for every queue (any queue whose stored size agrees with its chain,
as every reachable queue does), after `q_sort` completes the chain from head
to tail is non-decreasing under byte-wise string comparison: every adjacent
pair `(a, b)` satisfies `cmp_elem a b ≤ 0`. -/
theorem C1_sort_sorted (q : Queue) (h : q.size = q.nodes.length) :
    ((q_sort (some q)).getD q_new).nodes.Chain' eleLe := by
  unfold q_sort
  by_cases h1 : q_size (some q) ≤ 1
  · simp only [h1, if_true, Option.getD_some]
    have hlen : q.nodes.length ≤ 1 := by
      simp only [q_size] at h1
      omega
    match hn : q.nodes with
    | [] => simp
    | [a] => simp
    | a :: b :: r => rw [hn] at hlen; simp at hlen
  · simp only [h1, if_false, Option.map_some', Option.getD_some]
    exact merge_sort_chain' q.nodes

/-- Witness for C1 at the concrete queue holding "b", "a". -/
theorem C1_sort_sorted_witness :
    (Queue.mk [⟨0, [98]⟩, ⟨1, [97]⟩] (some 1) 2).size
      = (Queue.mk [⟨0, [98]⟩, ⟨1, [97]⟩] (some 1) 2).nodes.length ∧
    ((q_sort (some (Queue.mk [⟨0, [98]⟩, ⟨1, [97]⟩] (some 1) 2))).getD
        q_new).nodes.Chain' eleLe :=
  ⟨by decide, C1_sort_sorted (Queue.mk [⟨0, [98]⟩, ⟨1, [97]⟩] (some 1) 2) (by decide)⟩

/-- C2: `q_sort` is a pure rearrangement: the resulting chain is a
permutation of the old one (the very same nodes, so the node count and the
multiset of string values are unchanged and no node is allocated or
destroyed; only the links and the head/tail boundary references move), and
the stored size counter is untouched. -/
theorem C2_sort_pure_rearrangement (q : Queue) :
    ((q_sort (some q)).getD q_new).nodes.Perm q.nodes ∧
    ((q_sort (some q)).getD q_new).nodes.length = q.nodes.length ∧
    ((q_sort (some q)).getD q_new).size = q.size := by
  unfold q_sort
  by_cases h1 : q_size (some q) ≤ 1 <;>
    simp [h1, merge_sort_perm, merge_sort_length]

/-- C3 counterexample: on equal keys `merge` takes from `r2` first, not from
`r1`: merging the single-node ranges `r1 = [node 0, value "a"]` and
`r2 = [node 1, value "a"]` puts the `r2` node first, refuting the claimed
tie-break (the two nodes are distinct). -/
theorem C3_merge_tie_counterexample :
    merge [⟨0, [97]⟩] [⟨1, [97]⟩] = [⟨1, [97]⟩, ⟨0, [97]⟩] ∧
    (⟨1, [97]⟩ : Ele) ≠ ⟨0, [97]⟩ := by
  constructor
  · simp [merge, cmp_elem, strcmp]
  · decide

/-- C3 (amended): for sorted ranges, `merge` takes elements in ascending
byte-wise order of their string value, and whenever the current heads of
`r1` and `r2` compare equal the element from `r2` is taken first (the code
takes from `r1` only on a strictly negative comparison). -/
theorem C3_merge_ascending_ties_from_r2 (r1 r2 : List Ele)
    (h1 : r1.Chain' eleLe) (h2 : r2.Chain' eleLe) :
    (merge r1 r2).Chain' eleLe ∧
    (∀ a as b bs, r1 = a :: as → r2 = b :: bs → cmp_elem a b = 0 →
      merge r1 r2 = b :: merge r1 bs) := by
  refine ⟨merge_chain' r1 r2 h1 h2, ?_⟩
  rintro a as b bs rfl rfl heq
  simp [merge, heq]

/-- Witness for C3 (amended) at two equal-valued single-node ranges. -/
theorem C3_merge_ascending_ties_from_r2_witness :
    (merge [⟨0, [97]⟩] [⟨1, [97]⟩]).Chain' eleLe ∧
    merge [⟨0, [97]⟩] [⟨1, [97]⟩] = ⟨1, [97]⟩ :: merge [⟨0, [97]⟩] [] :=
  ⟨(C3_merge_ascending_ties_from_r2 [⟨0, [97]⟩] [⟨1, [97]⟩]
      (by simp) (by simp)).1,
   (C3_merge_ascending_ties_from_r2 [⟨0, [97]⟩] [⟨1, [97]⟩]
      (by simp) (by simp)).2 _ _ _ _ rfl rfl (by decide)⟩

/-- C4: `q_remove_head` on a non-empty queue with a buffer of capacity
`bufsize ≥ 1` succeeds and writes exactly the `strncpy` image of the removed
value into `bufsize - 1` bytes plus one terminator byte: the copied prefix
of the value has at most `bufsize - 1` bytes and the whole write occupies
exactly the `bufsize` bytes of the buffer, never a byte beyond it. -/
theorem C4_remove_head_truncates (q : Queue) (e : Ele) (rest : List Ele)
    (bufsize : Nat) (hn : q.nodes = e :: rest) (hsz : q.size ≠ 0)
    (hb : 1 ≤ bufsize) :
    (q_remove_head (some q) true bufsize).1 = true ∧
    (q_remove_head (some q) true bufsize).2.1
      = some (strncpy_buf e.value (bufsize - 1) ++ [0]) ∧
    (e.value.take (bufsize - 1)).length ≤ bufsize - 1 ∧
    (strncpy_buf e.value (bufsize - 1) ++ [0]).length = bufsize := by
  refine ⟨?_, ?_, ?_, ?_⟩
  · simp [q_remove_head, hsz]
  · simp [q_remove_head, hsz, hn]
  · simp
  · simp [strncpy_buf]
    omega

/-- Witness for C4: the spec scenario — stored value "hello", 3-byte buffer,
output "he" plus terminator, success. -/
theorem C4_remove_head_truncates_witness :
    (q_remove_head (some (Queue.mk [⟨0, [104, 101, 108, 108, 111]⟩] (some 0) 1))
        true 3).1 = true ∧
    (q_remove_head (some (Queue.mk [⟨0, [104, 101, 108, 108, 111]⟩] (some 0) 1))
        true 3).2.1 = some [104, 101, 0] :=
  ⟨(C4_remove_head_truncates _ ⟨0, [104, 101, 108, 108, 111]⟩ [] 3 rfl
      (by decide) (by decide)).1,
   by
    rw [(C4_remove_head_truncates _ ⟨0, [104, 101, 108, 108, 111]⟩ [] 3 rfl
      (by decide) (by decide)).2.1]
    decide⟩

/-- C5: `q_insert_head` and `q_insert_tail` return `false` exactly when the
queue is NULL, the string is NULL, or one of the two allocations fails, and
in every failure case the queue state is completely unchanged (in
particular, when the new node's string allocation fails in `q_insert_tail`
the old tail's next link still ends the chain exactly as before). -/
theorem C5_insert_failure_unchanged (q : Option Queue) (s : Option (List Nat))
    (m d : Bool) (i : Nat) :
    ((q_insert_head q s m d i).1 = false ↔
      q = none ∨ s = none ∨ m = false ∨ d = false) ∧
    ((q_insert_head q s m d i).1 = false → (q_insert_head q s m d i).2 = q) ∧
    ((q_insert_tail q s m d i).1 = false ↔
      q = none ∨ s = none ∨ m = false ∨ d = false) ∧
    ((q_insert_tail q s m d i).1 = false → (q_insert_tail q s m d i).2 = q) := by
  match q with
  | none => simp [q_insert_head, q_insert_tail]
  | some q =>
    cases s <;> cases m <;> cases d <;>
      by_cases h0 : q.size = 0 <;>
        simp [q_insert_head, q_insert_tail, new_element, h0]

/-- Witness for C5: a NULL-queue insert fails with no state, and a failed
tail insert (string allocation refused) leaves a concrete queue unchanged. -/
theorem C5_insert_failure_unchanged_witness :
    (q_insert_head none (some [97]) true true 0).2 = none ∧
    (q_insert_tail (some (Queue.mk [⟨0, [98]⟩] (some 0) 1)) (some [97])
        true false 1).2 = some (Queue.mk [⟨0, [98]⟩] (some 0) 1) :=
  ⟨(C5_insert_failure_unchanged none (some [97]) true true 0).2.1 (by decide),
   (C5_insert_failure_unchanged (some (Queue.mk [⟨0, [98]⟩] (some 0) 1))
      (some [97]) true false 1).2.2.2 (by decide)⟩

/-- C6: `split` of a closed range of `n ≥ 2` nodes yields two closed,
non-overlapping, contiguous sub-ranges of sizes `⌈n/2⌉` and `⌊n/2⌋` whose
concatenation is the original range (each sub-list is its own
NUL-terminated chain); a range of exactly one node comes back as `r1` with
an empty `r2`. -/
theorem C6_split_halves (l : List Ele) :
    (2 ≤ l.length →
      (split l).1.length = (l.length + 1) / 2 ∧
      (split l).2.length = l.length / 2 ∧
      (split l).1 ++ (split l).2 = l) ∧
    (l.length = 1 → split l = (l, [])) := by
  match l with
  | [] => constructor <;> intro h <;> simp at h
  | [a] =>
      constructor
      · intro h; simp at h
      · intro _; simp [split]
  | a :: b :: rest =>
      constructor
      · intro _
        have hs := split_spec a b rest
        simp only [List.length_cons] at hs ⊢
        refine ⟨by omega, by omega, hs.2.2⟩
      · intro h; simp at h

/-- Witness for C6 at a concrete three-node range and a one-node range. -/
theorem C6_split_halves_witness :
    ((split [⟨0, [97]⟩, ⟨1, [98]⟩, ⟨2, [99]⟩]).1.length = 2 ∧
     (split [⟨0, [97]⟩, ⟨1, [98]⟩, ⟨2, [99]⟩]).2.length = 1 ∧
     (split [⟨0, [97]⟩, ⟨1, [98]⟩, ⟨2, [99]⟩]).1
       ++ (split [⟨0, [97]⟩, ⟨1, [98]⟩, ⟨2, [99]⟩]).2
       = [⟨0, [97]⟩, ⟨1, [98]⟩, ⟨2, [99]⟩]) ∧
    split [⟨0, [97]⟩] = ([⟨0, [97]⟩], []) :=
  ⟨(C6_split_halves [⟨0, [97]⟩, ⟨1, [98]⟩, ⟨2, [99]⟩]).1 (by decide),
   (C6_split_halves [⟨0, [97]⟩]).2 (by decide)⟩

/-- C7: after every sequence of insert/remove/reverse/sort operations run
from a fresh empty queue, the structural invariant holds: the stored size
equals the number of nodes reachable from head, and the stored tail pointer
is the last reachable node (so tail is reached from head in `size - 1`
steps, `tail->next` ends the chain, and after removals down to at most one
element the tail has been resynchronized to the head). -/
theorem C7_invariant_after_ops (ops : List Op) :
    Wf (runOps ops) ∧
    (runOps ops).size = (runOps ops).nodes.length ∧
    (runOps ops).tailRef = (runOps ops).nodes.getLast?.map Ele.id := by
  have h := wf_foldl ops q_new wf_q_new
  exact ⟨h, h.1, h.2⟩

/-- C8: `q_reverse` applied twice restores the original chain order, and a
single `q_reverse` allocates and frees no node: the reversed chain is a
permutation of the old one (the same nodes, merely relinked with head and
tail swapped). -/
theorem C8_reverse_involutive (q : Queue) :
    ((q_reverse (q_reverse (some q))).getD q_new).nodes = q.nodes ∧
    ((q_reverse (some q)).getD q_new).nodes.Perm q.nodes ∧
    ((q_reverse (some q)).getD q_new).nodes.length = q.nodes.length := by
  by_cases h1 : q.size ≤ 1
  · simp [q_reverse, q_size, h1]
  · simp [q_reverse, q_size, h1, List.reverse_perm]

/-- C9: `merge_sort` recurses only on ranges of at least three nodes
(length one and two are base cases), and there `split` yields two strictly
shorter, non-empty sub-ranges, so the recursion is well-founded on range
length (which is what lets `merge_sort` be accepted as terminating on every
finite NUL-terminated chain). -/
theorem C9_split_strictly_decreases (l : List Ele) (h : 3 ≤ l.length) :
    0 < (split l).1.length ∧ 0 < (split l).2.length ∧
    (split l).1.length < l.length ∧ (split l).2.length < l.length := by
  match l with
  | [] => simp at h
  | [a] => simp at h
  | a :: b :: rest =>
      have hs := split_spec a b rest
      simp only [List.length_cons] at hs h ⊢
      omega

/-- Witness for C9 at a concrete three-node range. -/
theorem C9_split_strictly_decreases_witness :
    0 < (split [⟨0, [97]⟩, ⟨1, [98]⟩, ⟨2, [99]⟩]).1.length ∧
    0 < (split [⟨0, [97]⟩, ⟨1, [98]⟩, ⟨2, [99]⟩]).2.length ∧
    (split [⟨0, [97]⟩, ⟨1, [98]⟩, ⟨2, [99]⟩]).1.length < 3 ∧
    (split [⟨0, [97]⟩, ⟨1, [98]⟩, ⟨2, [99]⟩]).2.length < 3 :=
  C9_split_strictly_decreases [⟨0, [97]⟩, ⟨1, [98]⟩, ⟨2, [99]⟩] (by decide)

/-- C10: a node is only ever created from a non-NULL string (whose bytes
become its value): `new_element` fails on a NULL string rather than admit a
node without a value, and both inserts then report failure leaving the
queue unchanged — so every stored node carries a value for `q_remove_head`'s
copy and `cmp_elem`'s comparisons to read. -/
theorem C10_no_null_values :
    (∀ s m d i e, new_element s m d i = some e → s = some e.value) ∧
    (∀ m d i, new_element none m d i = none) ∧
    (∀ q m d i, q_insert_head (some q) none m d i = (false, some q)) ∧
    (∀ q m d i, q_insert_tail (some q) none m d i = (false, some q)) := by
  refine ⟨?_, ?_, ?_, ?_⟩
  · intro s m d i e he
    match s, m, d with
    | none, _, _ => simp [new_element] at he
    | some v, false, _ => simp [new_element] at he
    | some v, true, false => simp [new_element] at he
    | some v, true, true =>
        simp [new_element] at he
        simp [← he]
  · intro m d i; simp [new_element]
  · intro q m d i; simp [q_insert_head, new_element]
  · intro q m d i
    by_cases h0 : q.size = 0 <;>
      simp [q_insert_tail, q_insert_head, new_element, h0]

/-- Witness for C10: the one-byte string "a" allocated as node 0. -/
theorem C10_no_null_values_witness :
    (some [97] : Option (List Nat)) = some (Ele.mk 0 [97]).value :=
  C10_no_null_values.1 (some [97]) true true 0 ⟨0, [97]⟩ (by decide)

end Lab0
